import Mathlib

/-!
Shallow embedding of the geocoin game (`src/src/main.ts`, `src/unnamed/part_000`,
`src/unnamed/part_001`) and proofs about its core state management:
coin ledger (collect/deposit), lazy memoized cache generation (`spawnCache`),
the memento-based snapshot stack (`Caretaker.backup` / `undo`), the
localStorage persistence codec (`saveGameState` / `loadGameState`), and
`resetGame`.

Modelling conventions:
* JS numbers are modelled as `Int` where the source only ever stores integers
  (cell indices, serials) and as `ℚ` for geographic coordinates.
* The source keys its `Map<string, CellExtrinsicState>` by the template string
  `` `${i},${j}` ``.  On integers that string is injective, so the model keys
  the map by the pair `(i, j)` directly; JS `Map` iteration/insertion order is
  modelled by an association list with `set` replacing in place or appending.
* `luck` (`./luck.ts`, a deterministic hash not present in the sources) is a
  pure function of its string argument; the model abstracts the two draws the
  code makes from it as parameters `luckSpawn : Int → Int → Bool`
  (`luck([i,j].toString()) < CACHE_SPAWN_PROBABILITY`) and
  `luckCoins : Int → Int → Nat` (`Math.floor(luck([i,j,"initialCoins"]) * 6)`).
-/

namespace Geocoin

/-- A coin: `{ i, j, serial }` (`interface Coin` in all three revisions). -/
structure Coin where
  i : Int
  j : Int
  serial : Int
deriving DecidableEq, Repr

/-- Extrinsic cell state: `{ i, j, coins }` (`interface CellExtrinsicState`). -/
structure CellState where
  i : Int
  j : Int
  coins : List Coin
deriving DecidableEq, Repr

/-- Map key: stands for the JS string `` `${i},${j}` ``, injective on ints. -/
abbrev Key := Int × Int

/-- The `cellStates` map, as an insertion-ordered association list
(the semantics of a JS `Map`). -/
abbrev CellMap := List (Key × CellState)

/-- `cellStates.get(key)`. -/
def mapGet (m : CellMap) (k : Key) : Option CellState :=
  (m.find? (fun e => decide (e.1 = k))).map (·.2)

/-- `cellStates.set(key, v)`: replace in place if present, else append
(JS `Map.set` keeps the original insertion position of an existing key). -/
def mapSet (m : CellMap) (k : Key) (v : CellState) : CellMap :=
  if m.any (fun e => decide (e.1 = k)) then
    m.map (fun e => if e.1 = k then (k, v) else e)
  else
    m ++ [(k, v)]

/-- Mutate the state object stored at `k` in place (no-op if absent): the JS
pattern of fetching `cellStates.get(key)` and mutating the returned object. -/
def mapModify (m : CellMap) (k : Key) (f : CellState → CellState) : CellMap :=
  m.map (fun e => if e.1 = k then (e.1, f e.2) else e)

/-! ## Coin ledger: collect and deposit

`CacheCellUIHandler.collectCoin` / `depositCoin` (part_000 lines 158–178) and
the popup click handlers in `main.ts` lines 143–175 are the same mutation:
guard on emptiness, `pop()` from one list, `push()` onto the other.
`part_001` lines 158–177 additionally re-stamps the deposited coin with the
receiving cache's indices and `serial = coins.length` before pushing. -/

/-- `collectCoin(extrinsicState)` / the `#collect` click handler: if the
cache's coin list is empty, alert and return unchanged; otherwise pop the
last coin off the cache and push it (the very same coin) onto `playerCoins`.
Returns the new cell state, the new inventory, and the moved coin (`none`
signals the `EmptyCache` early return). -/
def collectCoin (cell : CellState) (inv : List Coin) :
    CellState × List Coin × Option Coin :=
  match cell.coins.getLast? with
  | none => (cell, inv, none)
  | some c => ({ cell with coins := cell.coins.dropLast }, inv ++ [c], some c)

/-- `depositCoin(extrinsicState)` / the `#deposit` handler of `main.ts` and
part_000: if the inventory is empty, alert and return unchanged; otherwise pop
the last coin off `playerCoins` and push it unchanged onto the cache's list. -/
def depositCoin (cell : CellState) (inv : List Coin) :
    CellState × List Coin × Option Coin :=
  match inv.getLast? with
  | none => (cell, inv, none)
  | some c => ({ cell with coins := cell.coins ++ [c] }, inv.dropLast, some c)

/-- The `#deposit` handler of part_001 (lines 158–177): pop the last coin off
`playerCoins`, re-stamp it with `coin.i = i; coin.j = j;
coin.serial = coins.length`, and push the re-stamped coin onto the cache. -/
def depositRestamp (cell : CellState) (inv : List Coin) :
    CellState × List Coin × Option Coin :=
  match inv.getLast? with
  | none => (cell, inv, none)
  | some _ =>
      let c' : Coin := { i := cell.i, j := cell.j, serial := Int.ofNat cell.coins.length }
      ({ cell with coins := cell.coins ++ [c'] }, inv.dropLast, some c')

/-! ### A small state machine over the whole cell map, for sequences of ops -/

/-- Live game state relevant to the ledger: the `cellStates` map and the
`playerCoins` inventory. -/
structure LState where
  cells : CellMap
  inv : List Coin
deriving DecidableEq, Repr

/-- One player interaction with a cache popup, addressed by its cell key. -/
inductive LOp where
  | collect (k : Key)
  | deposit (k : Key)
  | depositRS (k : Key)
deriving DecidableEq, Repr

/-- Apply one interaction: look the cell up in the map and run the handler,
writing back the mutated cell object (a no-op on a key with no cache). -/
def applyOp (s : LState) (op : LOp) : LState :=
  match op with
  | .collect k =>
      match mapGet s.cells k with
      | none => s
      | some cell =>
          let r := collectCoin cell s.inv
          { cells := mapSet s.cells k r.1, inv := r.2.1 }
  | .deposit k =>
      match mapGet s.cells k with
      | none => s
      | some cell =>
          let r := depositCoin cell s.inv
          { cells := mapSet s.cells k r.1, inv := r.2.1 }
  | .depositRS k =>
      match mapGet s.cells k with
      | none => s
      | some cell =>
          let r := depositRestamp cell s.inv
          { cells := mapSet s.cells k r.1, inv := r.2.1 }

/-- Apply a whole interaction sequence, left to right. -/
def applyOps (s : LState) (ops : List LOp) : LState :=
  ops.foldl applyOp s

/-- Total coin count: `Σ (all cache coin-list lengths) + inventory length`. -/
def totalCoins (s : LState) : Nat :=
  (s.cells.map (fun e => e.2.coins.length)).sum + s.inv.length

end Geocoin

namespace Geocoin

/-! ## Basic lemmas about the ledger -/

theorem collectCoin_empty (cell : CellState) (inv : List Coin)
    (h : cell.coins = []) : collectCoin cell inv = (cell, inv, none) := by
  unfold collectCoin
  rw [h]
  rfl

theorem collectCoin_cons (cell : CellState) (inv : List Coin) (c : Coin)
    (h : cell.coins.getLast? = some c) :
    collectCoin cell inv =
      ({ cell with coins := cell.coins.dropLast }, inv ++ [c], some c) := by
  unfold collectCoin
  rw [h]

theorem depositCoin_empty (cell : CellState) (inv : List Coin)
    (h : inv = []) : depositCoin cell inv = (cell, inv, none) := by
  subst h; rfl

theorem depositRestamp_empty (cell : CellState) (inv : List Coin)
    (h : inv = []) : depositRestamp cell inv = (cell, inv, none) := by
  subst h; rfl

/-- Collect moves one coin (cache loses one, inventory gains one) or moves
nothing; either way the combined length is preserved. -/
theorem collectCoin_length (cell : CellState) (inv : List Coin) :
    ((collectCoin cell inv).1.coins.length + (collectCoin cell inv).2.1.length)
      = cell.coins.length + inv.length := by
  unfold collectCoin
  match h : cell.coins.getLast? with
  | none =>
      simp
  | some c =>
      have hne : cell.coins ≠ [] := by
        intro hnil
        rw [hnil] at h
        simp at h
      simp only [List.length_append, List.length_dropLast, List.length_cons,
        List.length_nil]
      have hpos : 0 < cell.coins.length := List.length_pos.mpr hne
      omega

theorem depositCoin_length (cell : CellState) (inv : List Coin) :
    ((depositCoin cell inv).1.coins.length + (depositCoin cell inv).2.1.length)
      = cell.coins.length + inv.length := by
  unfold depositCoin
  match h : inv.getLast? with
  | none => simp
  | some c =>
      have hne : inv ≠ [] := by
        intro hnil
        rw [hnil] at h
        simp at h
      simp only [List.length_append, List.length_dropLast, List.length_cons,
        List.length_nil]
      have hpos : 0 < inv.length := List.length_pos.mpr hne
      omega

theorem depositRestamp_length (cell : CellState) (inv : List Coin) :
    ((depositRestamp cell inv).1.coins.length
        + (depositRestamp cell inv).2.1.length)
      = cell.coins.length + inv.length := by
  unfold depositRestamp
  match h : inv.getLast? with
  | none => simp
  | some c =>
      have hne : inv ≠ [] := by
        intro hnil
        rw [hnil] at h
        simp at h
      simp only [List.length_append, List.length_dropLast, List.length_cons,
        List.length_nil]
      have hpos : 0 < inv.length := List.length_pos.mpr hne
      omega

end Geocoin

namespace Geocoin

/-! ## Lemmas about the cell map -/

theorem find?_isSome_of_mapGet (m : CellMap) (k : Key) (cell : CellState)
    (hget : mapGet m k = some cell) :
    (m.find? (fun e => decide (e.1 = k))).isSome := by
  unfold mapGet at hget
  cases hfind : m.find? (fun e => decide (e.1 = k)) with
  | none => rw [hfind] at hget; simp at hget
  | some a => simp

theorem mapSet_of_get (m : CellMap) (k : Key) (v cell : CellState)
    (hget : mapGet m k = some cell) :
    mapSet m k v = m.map (fun e => if e.1 = k then (k, v) else e) := by
  have hs := find?_isSome_of_mapGet m k cell hget
  rw [List.find?_isSome] at hs
  unfold mapSet
  rw [if_pos]
  rw [List.any_eq_true]
  exact hs

theorem keys_mapSet_of_get (m : CellMap) (k : Key) (v cell : CellState)
    (hget : mapGet m k = some cell) :
    (mapSet m k v).map Prod.fst = m.map Prod.fst := by
  rw [mapSet_of_get m k v cell hget, List.map_map]
  refine List.map_congr_left ?_
  intro e _
  by_cases hk : e.1 = k
  · simp [hk]
  · simp [hk]

theorem sum_coins_replace (m : CellMap) (k : Key) (v cell : CellState)
    (hnd : (m.map Prod.fst).Nodup) (hget : mapGet m k = some cell) :
    ((m.map (fun e => if e.1 = k then (k, v) else e)).map
        (fun e => e.2.coins.length)).sum + cell.coins.length
      = (m.map (fun e => e.2.coins.length)).sum + v.coins.length := by
  induction m with
  | nil => simp [mapGet] at hget
  | cons e m ih =>
      simp only [List.map_cons, List.nodup_cons] at hnd
      by_cases hk : e.1 = k
      · have hcell : cell = e.2 := by
          unfold mapGet at hget
          rw [List.find?_cons_of_pos _ (by simpa using hk)] at hget
          simp at hget
          exact hget.symm
        have htail : m.map (fun e => if e.1 = k then (k, v) else e) = m := by
          have : ∀ x ∈ m, (fun e => if e.1 = k then (k, v) else e) x = x := by
            intro x hx
            have : x.1 ≠ k := by
              intro hxk
              exact hnd.1 (by
                rw [hk, ← hxk]
                exact List.mem_map_of_mem Prod.fst hx)
            simp [this]
          rw [List.map_congr_left this]
          simp
        simp only [List.map_cons, if_pos hk, htail, List.sum_cons, hcell]
        omega
      · have hget' : mapGet m k = some cell := by
          unfold mapGet at hget ⊢
          rwa [List.find?_cons_of_neg _ (by simpa using hk)] at hget
        have := ih hnd.2 hget'
        simp only [List.map_cons, if_neg hk, List.sum_cons]
        omega

theorem sum_coins_mapSet (m : CellMap) (k : Key) (v cell : CellState)
    (hnd : (m.map Prod.fst).Nodup) (hget : mapGet m k = some cell) :
    ((mapSet m k v).map (fun e => e.2.coins.length)).sum + cell.coins.length
      = (m.map (fun e => e.2.coins.length)).sum + v.coins.length := by
  rw [mapSet_of_get m k v cell hget]
  exact sum_coins_replace m k v cell hnd hget

/-- One popup interaction neither adds nor removes map keys. -/
theorem keys_applyOp (s : LState) (op : LOp) :
    (applyOp s op).cells.map Prod.fst = s.cells.map Prod.fst := by
  cases op with
  | collect k =>
      cases hget : mapGet s.cells k with
      | none => simp [applyOp, hget]
      | some cell =>
          simp only [applyOp, hget]
          exact keys_mapSet_of_get s.cells k _ cell hget
  | deposit k =>
      cases hget : mapGet s.cells k with
      | none => simp [applyOp, hget]
      | some cell =>
          simp only [applyOp, hget]
          exact keys_mapSet_of_get s.cells k _ cell hget
  | depositRS k =>
      cases hget : mapGet s.cells k with
      | none => simp [applyOp, hget]
      | some cell =>
          simp only [applyOp, hget]
          exact keys_mapSet_of_get s.cells k _ cell hget

/-- One popup interaction conserves the total coin count. -/
theorem totalCoins_applyOp (s : LState) (op : LOp)
    (hnd : (s.cells.map Prod.fst).Nodup) :
    totalCoins (applyOp s op) = totalCoins s := by
  cases op with
  | collect k =>
      cases hget : mapGet s.cells k with
      | none => simp [applyOp, hget]
      | some cell =>
          simp only [applyOp, hget, totalCoins]
          have h1 := sum_coins_mapSet s.cells k (collectCoin cell s.inv).1 cell hnd hget
          have h2 := collectCoin_length cell s.inv
          omega
  | deposit k =>
      cases hget : mapGet s.cells k with
      | none => simp [applyOp, hget]
      | some cell =>
          simp only [applyOp, hget, totalCoins]
          have h1 := sum_coins_mapSet s.cells k (depositCoin cell s.inv).1 cell hnd hget
          have h2 := depositCoin_length cell s.inv
          omega
  | depositRS k =>
      cases hget : mapGet s.cells k with
      | none => simp [applyOp, hget]
      | some cell =>
          simp only [applyOp, hget, totalCoins]
          have h1 := sum_coins_mapSet s.cells k (depositRestamp cell s.inv).1 cell hnd hget
          have h2 := depositRestamp_length cell s.inv
          omega

theorem totalCoins_applyOps (s : LState) (ops : List LOp)
    (hnd : (s.cells.map Prod.fst).Nodup) :
    totalCoins (applyOps s ops) = totalCoins s := by
  induction ops generalizing s with
  | nil => rfl
  | cons op ops ih =>
      have hk := keys_applyOp s op
      have := ih (applyOp s op) (by rw [hk]; exact hnd)
      simpa [applyOps, List.foldl_cons] using this.trans (totalCoins_applyOp s op hnd)

end Geocoin

namespace Geocoin

/-! ## Claim C3: conservation of coins under collect/deposit sequences -/

/-- C3: for every state whose cell map has the JS-`Map` property of unique
keys, any sequence of collect/deposit interactions (under either revision's
deposit policy) leaves `Σ(all cache coin-list lengths) + inventory length`
unchanged: no coin is created or destroyed by these operations. -/
theorem collect_deposit_conserve_total (s : LState) (ops : List LOp)
    (hnd : (s.cells.map Prod.fst).Nodup) :
    totalCoins (applyOps s ops) = totalCoins s :=
  totalCoins_applyOps s ops hnd

/-- Witness for C3: a two-cache world, collect at `(0,0)` then deposit into
`(1,1)`; the total coin count 3 is conserved. -/
theorem collect_deposit_conserve_total_witness :
    (((⟨[((0, 0), ⟨0, 0, [⟨0, 0, 0⟩]⟩), ((1, 1), ⟨1, 1, [⟨1, 1, 0⟩, ⟨1, 1, 1⟩]⟩)],
        []⟩ : LState).cells.map Prod.fst).Nodup)
    ∧ totalCoins (applyOps
        ⟨[((0, 0), ⟨0, 0, [⟨0, 0, 0⟩]⟩), ((1, 1), ⟨1, 1, [⟨1, 1, 0⟩, ⟨1, 1, 1⟩]⟩)], []⟩
        [.collect (0, 0), .deposit (1, 1)])
      = totalCoins
        ⟨[((0, 0), ⟨0, 0, [⟨0, 0, 0⟩]⟩), ((1, 1), ⟨1, 1, [⟨1, 1, 0⟩, ⟨1, 1, 1⟩]⟩)], []⟩ :=
  ⟨by decide,
   collect_deposit_conserve_total
     ⟨[((0, 0), ⟨0, 0, [⟨0, 0, 0⟩]⟩), ((1, 1), ⟨1, 1, [⟨1, 1, 0⟩, ⟨1, 1, 1⟩]⟩)], []⟩
     [.collect (0, 0), .deposit (1, 1)] (by decide)⟩

/-! ## Claim C6: collect fails exactly on an empty cache, atomically -/

/-- C6: `collectCoin` fails (moves no coin) exactly when the cache's coin list
is empty, and on failure changes neither the cache nor the inventory;
otherwise it removes the most-recently-added coin (the last of the list) from
the cache and appends that same coin, uncopied, to the end of the inventory. -/
theorem collectCoin_spec (cell : CellState) (inv : List Coin) :
    ((collectCoin cell inv).2.2 = none ↔ cell.coins = [])
    ∧ (cell.coins = [] → collectCoin cell inv = (cell, inv, none))
    ∧ ∀ (cs : List Coin) (c : Coin), cell.coins = cs ++ [c] →
        collectCoin cell inv = ({ cell with coins := cs }, inv ++ [c], some c) := by
  refine ⟨?_, ?_, ?_⟩
  · unfold collectCoin
    cases h : cell.coins.getLast? with
    | none => simpa using List.getLast?_eq_none_iff.mp h
    | some c =>
        simp only
        constructor
        · intro hc; exact absurd hc (by simp)
        · intro hnil; rw [hnil] at h; simp at h
  · intro h; exact collectCoin_empty cell inv h
  · intro cs c hsplit
    have hlast : cell.coins.getLast? = some c := by
      rw [hsplit]; exact List.getLast?_concat cs
    rw [collectCoin_cons cell inv c hlast]
    have : cell.coins.dropLast = cs := by
      rw [hsplit]; exact List.dropLast_concat
    rw [this]

/-- Witness for C6: collecting from a cache holding two coins pops the later
coin `(0,0)#1` and appends it to the inventory. -/
theorem collectCoin_spec_witness :
    collectCoin ⟨0, 0, [⟨0, 0, 0⟩, ⟨0, 0, 1⟩]⟩ []
      = (⟨0, 0, [⟨0, 0, 0⟩]⟩, [⟨0, 0, 1⟩], some ⟨0, 0, 1⟩) :=
  (collectCoin_spec ⟨0, 0, [⟨0, 0, 0⟩, ⟨0, 0, 1⟩]⟩ []).2.2 [⟨0, 0, 0⟩] ⟨0, 0, 1⟩ (by decide)

/-! ## Claim C7: deposit fails exactly on an empty inventory, atomically -/

/-- C7: both revisions' deposit handlers fail (move no coin) exactly when the
player inventory is empty, and on failure change neither collection; otherwise
they remove the most-recently-collected coin (the last of the inventory) and
append one coin to the end of the cache's list in a single step — the removed
coin itself under the keep-provenance policy of `main.ts`/part_000, its
re-stamp `{i: cell.i, j: cell.j, serial: cell.coins.length}` under part_001. -/
theorem depositCoin_spec (cell : CellState) (inv : List Coin) :
    (((depositCoin cell inv).2.2 = none ↔ inv = [])
      ∧ ((depositRestamp cell inv).2.2 = none ↔ inv = [])
      ∧ (inv = [] → depositCoin cell inv = (cell, inv, none)
          ∧ depositRestamp cell inv = (cell, inv, none)))
    ∧ ∀ (cs : List Coin) (c : Coin), inv = cs ++ [c] →
        depositCoin cell inv
          = ({ cell with coins := cell.coins ++ [c] }, cs, some c)
        ∧ depositRestamp cell inv
          = ({ cell with coins := cell.coins
                ++ [⟨cell.i, cell.j, Int.ofNat cell.coins.length⟩] }, cs,
             some ⟨cell.i, cell.j, Int.ofNat cell.coins.length⟩) := by
  constructor
  · refine ⟨?_, ?_, fun h => ⟨depositCoin_empty cell inv h, depositRestamp_empty cell inv h⟩⟩
    · unfold depositCoin
      cases h : inv.getLast? with
      | none => simpa using List.getLast?_eq_none_iff.mp h
      | some c =>
          simp only
          constructor
          · intro hc; exact absurd hc (by simp)
          · intro hnil; rw [hnil] at h; simp at h
    · unfold depositRestamp
      cases h : inv.getLast? with
      | none => simpa using List.getLast?_eq_none_iff.mp h
      | some c =>
          simp only
          constructor
          · intro hc; exact absurd hc (by simp)
          · intro hnil; rw [hnil] at h; simp at h
  · intro cs c hsplit
    have hlast : inv.getLast? = some c := by
      rw [hsplit]; exact List.getLast?_concat cs
    have hdrop : inv.dropLast = cs := by
      rw [hsplit]; exact List.dropLast_concat
    constructor
    · unfold depositCoin
      rw [hlast, hdrop]
    · unfold depositRestamp
      rw [hlast, hdrop]

/-- Witness for C7: depositing with inventory `[(5,5)#7]` into the cache at
`(1,1)` appends the coin unchanged under the keep-provenance policy and as
`(1,1)#1` (serial = current list length) under part_001's re-stamping. -/
theorem depositCoin_spec_witness :
    depositCoin ⟨1, 1, [⟨1, 1, 0⟩]⟩ [⟨5, 5, 7⟩]
      = (⟨1, 1, [⟨1, 1, 0⟩, ⟨5, 5, 7⟩]⟩, [], some ⟨5, 5, 7⟩)
    ∧ depositRestamp ⟨1, 1, [⟨1, 1, 0⟩]⟩ [⟨5, 5, 7⟩]
      = (⟨1, 1, [⟨1, 1, 0⟩, ⟨1, 1, 1⟩]⟩, [], some ⟨1, 1, 1⟩) :=
  (depositCoin_spec ⟨1, 1, [⟨1, 1, 0⟩]⟩ [⟨5, 5, 7⟩]).2 [] ⟨5, 5, 7⟩ (by decide)

end Geocoin

namespace Geocoin

/-! ## World generation: `spawnCache` and the visible-cache scan -/

/-- `mapGet` on a cons cell inspects the head first. -/
theorem mapGet_cons (e : Key × CellState) (m : CellMap) (k : Key) :
    mapGet (e :: m) k = if e.1 = k then some e.2 else mapGet m k := by
  by_cases hk : e.1 = k
  · unfold mapGet
    rw [List.find?_cons_of_pos _ (by simpa using hk), if_pos hk]
    rfl
  · unfold mapGet
    rw [List.find?_cons_of_neg _ (by simpa using hk), if_neg hk]

theorem mapSet_cons (e : Key × CellState) (m : CellMap) (k : Key) (v : CellState) :
    mapSet (e :: m) k v =
      if e.1 = k then (k, v) :: m.map (fun x => if x.1 = k then (k, v) else x)
      else e :: mapSet m k v := by
  by_cases hk : e.1 = k
  · simp [mapSet, hk]
  · by_cases hmem : m.any (fun x => decide (x.1 = k))
    · simp [mapSet, hk, hmem]
    · simp [mapSet, hk, hmem]

theorem mapGet_mapSet_self (m : CellMap) (k : Key) (v : CellState) :
    mapGet (mapSet m k v) k = some v := by
  induction m with
  | nil =>
      show mapGet (mapSet [] k v) k = some v
      simp [mapSet, mapGet]
  | cons e m ih =>
      rw [mapSet_cons]
      by_cases hk : e.1 = k
      · rw [if_pos hk, mapGet_cons]
        simp
      · rw [if_neg hk, mapGet_cons, if_neg hk]
        exact ih

theorem mapGet_mapModify_self (m : CellMap) (k : Key) (f : CellState → CellState) :
    mapGet (mapModify m k f) k = (mapGet m k).map f := by
  induction m with
  | nil => rfl
  | cons e m ih =>
      unfold mapModify at ih ⊢
      by_cases hk : e.1 = k
      · rw [List.map_cons, if_pos hk, mapGet_cons, mapGet_cons, if_pos hk, if_pos hk]
        rfl
      · rw [List.map_cons, if_neg hk, mapGet_cons, mapGet_cons, if_neg hk, if_neg hk]
        exact ih

/-- The coins minted for a fresh cache: `for (let serial = 0; serial < numCoins;
serial++) coins.push({ i, j, serial })`. -/
def initialCoins (i j : Int) (n : Nat) : List Coin :=
  (List.range n).map (fun s => ⟨i, j, Int.ofNat s⟩)

/-- `spawnCache(i, j)` (`main.ts` 370–397, part_000 390–417, part_001 282–309):
fetch the extrinsic state for `` `${i},${j}` ``; if absent, mint
`numCoins = Math.floor(luck([i,j,"initialCoins"].toString()) * 6)` coins with
serials `0..numCoins-1` and origin `(i,j)` and store the new state; finally
hand the (old or new) state to the flyweight's `draw` (rendering, outside the
model, which never mutates the state). -/
def spawnCache (luckCoins : Int → Int → Nat) (m : CellMap) (i j : Int) : CellMap :=
  if (mapGet m (i, j)).isSome then m
  else mapSet m (i, j) ⟨i, j, initialCoins i j (luckCoins i j)⟩

theorem spawnCache_of_isSome (luckCoins : Int → Int → Nat) (m : CellMap)
    (i j : Int) (h : (mapGet m (i, j)).isSome) :
    spawnCache luckCoins m i j = m := by
  unfold spawnCache
  rw [if_pos h]

theorem spawnCache_isSome (luckCoins : Int → Int → Nat) (m : CellMap) (i j : Int) :
    (mapGet (spawnCache luckCoins m i j) (i, j)).isSome := by
  unfold spawnCache
  by_cases h : (mapGet m (i, j)).isSome
  · rwa [if_pos h]
  · rw [if_neg h, mapGet_mapSet_self]
    rfl

/-! ## Claim C9: idempotent memoization of cache generation -/

/-- C9: after `spawnCache(i,j)` has run once, every later `spawnCache(i,j)`
call leaves the store untouched (so the second call yields the same coin count
and the store still holds the one extrinsic-state object created by the first
call — no coins are regenerated), and a mutation of the stored object made
through one reference is what any later lookup or `spawnCache` call sees. -/
theorem spawnCache_memoized (luckCoins : Int → Int → Nat) (m : CellMap) (i j : Int) :
    spawnCache luckCoins (spawnCache luckCoins m i j) i j
        = spawnCache luckCoins m i j
    ∧ (∃ cell, mapGet (spawnCache luckCoins m i j) (i, j) = some cell)
    ∧ ∀ f : CellState → CellState,
        spawnCache luckCoins (mapModify (spawnCache luckCoins m i j) (i, j) f) i j
          = mapModify (spawnCache luckCoins m i j) (i, j) f
        ∧ ∀ cell, mapGet (spawnCache luckCoins m i j) (i, j) = some cell →
            mapGet (mapModify (spawnCache luckCoins m i j) (i, j) f) (i, j)
              = some (f cell) := by
  have hsome := spawnCache_isSome luckCoins m i j
  refine ⟨spawnCache_of_isSome luckCoins _ i j hsome, ?_, ?_⟩
  · cases hc : mapGet (spawnCache luckCoins m i j) (i, j) with
    | none => rw [hc] at hsome; simp at hsome
    | some cell => exact ⟨cell, rfl⟩
  · intro f
    constructor
    · refine spawnCache_of_isSome luckCoins _ i j ?_
      rw [mapGet_mapModify_self]
      cases hc : mapGet (spawnCache luckCoins m i j) (i, j) with
      | none => rw [hc] at hsome; simp at hsome
      | some cell => rfl
    · intro cell hc
      rw [mapGet_mapModify_self, hc]
      rfl

/-- Witness for C9: an empty store, cell `(2,3)` given 2 coins by the
generator; the mutation applied through the store is visible to the later
lookup. -/
theorem spawnCache_memoized_witness :
    mapGet (mapModify (spawnCache (fun _ _ => 2) [] 2 3) (2, 3)
        (fun c => { c with coins := [] })) (2, 3)
      = some { i := 2, j := 3, coins := [] } :=
  ((spawnCache_memoized (fun _ _ => 2) [] 2 3).2.2
      (fun c => { c with coins := [] })).2
    ⟨2, 3, initialCoins 2 3 2⟩ (by decide)

end Geocoin

namespace Geocoin

/-! ## Claim C8: serial uniqueness within a cell's coin list -/

/-- A coin list is "canonical" when its serials read `0, 1, …, len-1` — the
shape `spawnCache` mints and part_001's re-stamping deposit maintains. -/
def canonicalList (cs : List Coin) : Prop :=
  cs.map Coin.serial = (List.range cs.length).map Int.ofNat

/-- States produced by world generation alone: empty inventory, every cell
holding the freshly minted serial run `0..n-1` with its own origin. -/
def generatedState (s : LState) : Prop :=
  s.inv = [] ∧ ∀ e ∈ s.cells, e.1 = (e.2.i, e.2.j) ∧
    ∃ n : Nat, e.2.coins = initialCoins e.2.i e.2.j n

/-- The keep-provenance deposit of `main.ts`/part_000 (as opposed to collect
and part_001's re-stamping deposit). -/
def isPlainDeposit : LOp → Bool
  | .deposit _ => true
  | _ => false

theorem mem_mapSet (m : CellMap) (k : Key) (v : CellState)
    (e : Key × CellState) (he : e ∈ mapSet m k v) : e ∈ m ∨ e = (k, v) := by
  unfold mapSet at he
  by_cases hmem : m.any (fun x => decide (x.1 = k))
  · rw [if_pos hmem] at he
    rcases List.mem_map.mp he with ⟨x, hx, hxe⟩
    by_cases hk : x.1 = k
    · right
      rw [← hxe, if_pos hk]
    · left
      rw [← hxe, if_neg hk]
      exact hx
  · rw [if_neg hmem] at he
    rcases List.mem_append.mp he with h | h
    · exact Or.inl h
    · exact Or.inr (by simpa using h)

theorem mapGet_mem (m : CellMap) (k : Key) (cell : CellState)
    (hget : mapGet m k = some cell) : (k, cell) ∈ m := by
  unfold mapGet at hget
  cases hfind : m.find? (fun e => decide (e.1 = k)) with
  | none => rw [hfind] at hget; simp at hget
  | some e =>
      rw [hfind] at hget
      simp only [Option.map_some'] at hget
      have hk : e.1 = k := by simpa using List.find?_some hfind
      have hmem := List.mem_of_find?_eq_some hfind
      have he2 : e.2 = cell := by injection hget
      rw [← he2, ← hk]
      simpa using hmem

theorem canonicalList_initial (i j : Int) (n : Nat) :
    canonicalList (initialCoins i j n) := by
  unfold canonicalList initialCoins
  simp [List.map_map, Function.comp]

theorem canonicalList_dropLast (cs : List Coin) (h : canonicalList cs) :
    canonicalList cs.dropLast := by
  unfold canonicalList at h ⊢
  rw [List.map_dropLast, h, List.length_dropLast]
  cases cs with
  | nil => rfl
  | cons c cs =>
      have hlen : (c :: cs).length = cs.length + 1 := rfl
      rw [hlen, List.range_succ, List.map_append]
      simp

theorem canonicalList_push (cs : List Coin) (i j : Int) (h : canonicalList cs) :
    canonicalList (cs ++ [⟨i, j, Int.ofNat cs.length⟩]) := by
  unfold canonicalList at h ⊢
  rw [List.map_append, h, List.length_append]
  simp [List.range_succ]

theorem canonicalList_collect (cell : CellState) (inv : List Coin)
    (h : canonicalList cell.coins) :
    canonicalList (collectCoin cell inv).1.coins := by
  unfold collectCoin
  cases cell.coins.getLast? with
  | none => exact h
  | some c => exact canonicalList_dropLast cell.coins h

theorem canonicalList_depositRS (cell : CellState) (inv : List Coin)
    (h : canonicalList cell.coins) :
    canonicalList (depositRestamp cell inv).1.coins := by
  unfold depositRestamp
  cases inv.getLast? with
  | none => exact h
  | some c => exact canonicalList_push cell.coins cell.i cell.j h

theorem canonical_applyOp (s : LState) (op : LOp)
    (hcanon : ∀ e ∈ s.cells, canonicalList e.2.coins)
    (hop : isPlainDeposit op = false) :
    ∀ e ∈ (applyOp s op).cells, canonicalList e.2.coins := by
  cases op with
  | deposit k => simp [isPlainDeposit] at hop
  | collect k =>
      intro e he
      cases hget : mapGet s.cells k with
      | none =>
          rw [applyOp, hget] at he
          exact hcanon e he
      | some cell =>
          rw [applyOp, hget] at he
          rcases mem_mapSet _ _ _ e he with h | h
          · exact hcanon e h
          · rw [h]
            exact canonicalList_collect cell s.inv
              (hcanon (k, cell) (mapGet_mem s.cells k cell hget))
  | depositRS k =>
      intro e he
      cases hget : mapGet s.cells k with
      | none =>
          rw [applyOp, hget] at he
          exact hcanon e he
      | some cell =>
          rw [applyOp, hget] at he
          rcases mem_mapSet _ _ _ e he with h | h
          · exact hcanon e h
          · rw [h]
            exact canonicalList_depositRS cell s.inv
              (hcanon (k, cell) (mapGet_mem s.cells k cell hget))

theorem canonical_applyOps (s : LState) (ops : List LOp)
    (hcanon : ∀ e ∈ s.cells, canonicalList e.2.coins)
    (hops : ∀ op ∈ ops, isPlainDeposit op = false) :
    ∀ e ∈ (applyOps s ops).cells, canonicalList e.2.coins := by
  induction ops generalizing s with
  | nil => exact hcanon
  | cons op ops ih =>
      have h1 := canonical_applyOp s op hcanon (hops op (List.mem_cons_self op ops))
      have h2 : ∀ o ∈ ops, isPlainDeposit o = false :=
        fun o ho => hops o (List.mem_cons_of_mem op ho)
      simpa [applyOps, List.foldl_cons] using ih (applyOp s op) h1 h2

/-- C8 counterexample: the claim fails as stated.  From the generated world
`{(0,0) ↦ [(0,0)#0], (1,1) ↦ [(1,1)#0]}` (a reachable state: both caches carry
their freshly minted serial runs), collecting at `(0,0)` and then depositing
into `(1,1)` under the keep-provenance deposit of `main.ts`/part_000 leaves
the `(1,1)` list `[(1,1)#0, (0,0)#0]` — two coins sharing serial `0`. -/
theorem deposit_duplicates_serial :
    generatedState ⟨[((0, 0), ⟨0, 0, [⟨0, 0, 0⟩]⟩), ((1, 1), ⟨1, 1, [⟨1, 1, 0⟩]⟩)], []⟩
    ∧ mapGet (applyOps
          ⟨[((0, 0), ⟨0, 0, [⟨0, 0, 0⟩]⟩), ((1, 1), ⟨1, 1, [⟨1, 1, 0⟩]⟩)], []⟩
          [.collect (0, 0), .deposit (1, 1)]).cells (1, 1)
        = some ⟨1, 1, [⟨1, 1, 0⟩, ⟨0, 0, 0⟩]⟩
    ∧ ¬ (([⟨1, 1, 0⟩, ⟨0, 0, 0⟩] : List Coin).map Coin.serial).Nodup := by
  refine ⟨⟨rfl, ?_⟩, by decide, by decide⟩
  intro e he
  simp only [List.mem_cons, List.not_mem_nil, or_false] at he
  rcases he with rfl | rfl
  · exact ⟨rfl, 1, by decide⟩
  · exact ⟨rfl, 1, by decide⟩

/-- C8 amended: collect and part_001's re-stamping deposit do preserve
serial-uniqueness — starting from any state whose cells are canonically
serial-numbered (as world generation mints them), after any sequence of
collect / re-stamping-deposit interactions every cell's serials still read
`0..len-1`, hence no cell list holds a duplicate serial.  The keep-provenance
deposit of `main.ts`/part_000 is exactly the operation the counterexample
shows breaking the invariant. -/
theorem serial_uniqueness_amended (s : LState) (ops : List LOp)
    (hcanon : ∀ e ∈ s.cells, canonicalList e.2.coins)
    (hops : ∀ op ∈ ops, isPlainDeposit op = false) :
    (∀ e ∈ (applyOps s ops).cells, canonicalList e.2.coins)
    ∧ ∀ e ∈ (applyOps s ops).cells, (e.2.coins.map Coin.serial).Nodup := by
  have h := canonical_applyOps s ops hcanon hops
  refine ⟨h, fun e he => ?_⟩
  rw [h e he]
  exact (List.nodup_range _).map (fun a b hab => Int.ofNat.inj hab)

/-- Witness for C8 amended: collect then re-stamping deposit at a 2-coin
cache leave the `(1,1)` cell holding `[(1,1)#0, (1,1)#1]` — serials stay
`0..len-1`, duplicate-free. -/
theorem serial_uniqueness_amended_witness :
    (((((1 : Int), (1 : Int)),
        (⟨1, 1, [⟨1, 1, 0⟩, ⟨1, 1, 1⟩]⟩ : CellState)) :
       Key × CellState).2.coins.map Coin.serial).Nodup :=
  (serial_uniqueness_amended
      ⟨[((1, 1), ⟨1, 1, [⟨1, 1, 0⟩, ⟨1, 1, 1⟩]⟩)], []⟩
      [.collect (1, 1), .depositRS (1, 1)]
      (by intro e he; simp only [List.mem_cons, List.not_mem_nil, or_false] at he
          rw [he]
          show canonicalList [⟨1, 1, 0⟩, ⟨1, 1, 1⟩]
          unfold canonicalList
          decide)
      (by decide)).2
    ((1, 1), ⟨1, 1, [⟨1, 1, 0⟩, ⟨1, 1, 1⟩]⟩) (by decide)

end Geocoin

namespace Geocoin

/-! ## Geographic constants and the coordinate mapper -/

/-- `OAKES.lat` (the decimal literal of the source). -/
def oakesLat : ℚ := 36.98949379578401

/-- `OAKES.lng`. -/
def oakesLng : ℚ := -122.06277128548504

/-- `TILE_DEGREES = 1e-4`. -/
def tileDegrees : ℚ := 1e-4

/-- `latToI(lat) = Math.floor(lat / TILE_DEGREES)`. -/
def latToI (lat : ℚ) : Int := Int.floor (lat / tileDegrees)

/-- `lngToJ(lng) = Math.floor(lng / TILE_DEGREES)`. -/
def lngToJ (lng : ℚ) : Int := Int.floor (lng / tileDegrees)

/-- The offsets `-NEIGHBORHOOD_SIZE .. NEIGHBORHOOD_SIZE` (= `-8..8`) scanned
by the two nested spawn loops. -/
def neighborhoodOffsets : List Int := (List.range 17).map (fun d => (d : Int) - 8)

/-- The full mutable game state the persistence layer touches: player
position (`currentLat`/`currentLng`), `movementHistory`, `playerCoins` and
`cellStates`. -/
structure GameState where
  currentLat : ℚ
  currentLng : ℚ
  movementHistory : List (ℚ × ℚ)
  playerCoins : List Coin
  cellStates : CellMap
deriving DecidableEq, Repr

/-- `updateVisibleCaches()`: for every cell in the `±8` neighborhood of the
player's cell, call `spawnCache(i, j)` when
`luck([i, j].toString()) < CACHE_SPAWN_PROBABILITY` (the layer clearing and
redrawing is rendering, outside the model). -/
def updateVisibleCaches (luckSpawn : Int → Int → Bool) (luckCoins : Int → Int → Nat)
    (st : GameState) : GameState :=
  let pI := latToI st.currentLat
  let pJ := lngToJ st.currentLng
  { st with cellStates :=
      neighborhoodOffsets.foldl (fun m1 di =>
        neighborhoodOffsets.foldl (fun m2 dj =>
          if luckSpawn (pI + di) (pJ + dj) then spawnCache luckCoins m2 (pI + di) (pJ + dj)
          else m2) m1) st.cellStates }

theorem spawnLoop_inner_id (luckSpawn : Int → Int → Bool) (luckCoins : Int → Int → Nat)
    (i pJ : Int) (m : CellMap) (l : List Int)
    (h : ∀ dj ∈ l, luckSpawn i (pJ + dj) = true → (mapGet m (i, pJ + dj)).isSome) :
    l.foldl (fun m2 dj =>
        if luckSpawn i (pJ + dj) then spawnCache luckCoins m2 i (pJ + dj) else m2) m
      = m := by
  induction l with
  | nil => rfl
  | cons dj l ih =>
      simp only [List.foldl_cons]
      by_cases hs : luckSpawn i (pJ + dj) = true
      · rw [if_pos hs, spawnCache_of_isSome luckCoins m i (pJ + dj)
          (h dj (List.mem_cons_self dj l) hs)]
        exact ih (fun dj' hdj' => h dj' (List.mem_cons_of_mem dj hdj'))
      · rw [if_neg hs]
        exact ih (fun dj' hdj' => h dj' (List.mem_cons_of_mem dj hdj'))

theorem spawnLoop_outer_id (luckSpawn : Int → Int → Bool) (luckCoins : Int → Int → Nat)
    (pI pJ : Int) (m : CellMap) (l inner : List Int)
    (h : ∀ di ∈ l, ∀ dj ∈ inner,
        luckSpawn (pI + di) (pJ + dj) = true → (mapGet m (pI + di, pJ + dj)).isSome) :
    l.foldl (fun m1 di =>
        inner.foldl (fun m2 dj =>
          if luckSpawn (pI + di) (pJ + dj) then spawnCache luckCoins m2 (pI + di) (pJ + dj)
          else m2) m1) m
      = m := by
  induction l with
  | nil => rfl
  | cons di l ih =>
      simp only [List.foldl_cons]
      rw [spawnLoop_inner_id luckSpawn luckCoins (pI + di) pJ m inner
        (h di (List.mem_cons_self di l))]
      exact ih (fun di' hdi' => h di' (List.mem_cons_of_mem di hdi'))

/-- If every spawnable neighborhood cell already has an entry, the
visible-cache scan leaves the state untouched. -/
theorem updateVisibleCaches_id (luckSpawn : Int → Int → Bool)
    (luckCoins : Int → Int → Nat) (st : GameState)
    (h : ∀ di ∈ neighborhoodOffsets, ∀ dj ∈ neighborhoodOffsets,
        luckSpawn (latToI st.currentLat + di) (lngToJ st.currentLng + dj) = true →
        (mapGet st.cellStates
          (latToI st.currentLat + di, lngToJ st.currentLng + dj)).isSome) :
    updateVisibleCaches luckSpawn luckCoins st = st := by
  simp only [updateVisibleCaches]
  rw [spawnLoop_outer_id luckSpawn luckCoins (latToI st.currentLat)
    (lngToJ st.currentLng) st.cellStates neighborhoodOffsets neighborhoodOffsets h]

/-! ## Persistence codec: `saveGameState` / `loadGameState`

`saveGameState` (part_000, 559–577) builds a plain object from the live state
and `JSON.stringify`s it into the `"geocoinGameState"` localStorage slot;
`loadGameState` (part_000, 580–627) `JSON.parse`s the slot and writes each
field back into the live state, with no try/catch and no shape validation.
The model works on the JSON value tree (stringify/parse of such a tree is
lossless); the map key — the string `` `${i},${j}` `` in the source,
represented here by the integer pair it injectively encodes — travels through
the save file unparsed, exactly as the source reuses the stored key string
directly as the new map key. -/

/-- A JSON value tree (the fragment `JSON.stringify`/`parse` exchange here). -/
inductive Json where
  | num (q : ℚ)
  | str (s : String)
  | arr (elems : List Json)
  | obj (fields : List (String × Json))
deriving Repr

/-- JS property access `v.name`: `none` when the shape does not provide the
field (the code then either throws a `TypeError` outright or feeds
`undefined` into a constructor that requires the value). -/
def Json.getField : Json → String → Option Json
  | .obj fields, name => (fields.find? (fun f => decide (f.1 = name))).map (·.2)
  | _, _ => none

def Json.asNum : Json → Option ℚ
  | .num q => some q
  | _ => none

def Json.asInt : Json → Option Int
  | .num q => if q.den = 1 then some q.num else none
  | _ => none

def Json.asArr : Json → Option (List Json)
  | .arr xs => some xs
  | _ => none

def coinJson (c : Coin) : Json :=
  .obj [("i", .num (c.i : ℚ)), ("j", .num (c.j : ℚ)), ("serial", .num (c.serial : ℚ))]

def decodeCoin (v : Json) : Option Coin := do
  let i ← (v.getField "i").bind Json.asInt
  let j ← (v.getField "j").bind Json.asInt
  let s ← (v.getField "serial").bind Json.asInt
  pure ⟨i, j, s⟩

def latLngJson (p : ℚ × ℚ) : Json := .obj [("lat", .num p.1), ("lng", .num p.2)]

def decodeLatLng (v : Json) : Option (ℚ × ℚ) := do
  let lat ← (v.getField "lat").bind Json.asNum
  let lng ← (v.getField "lng").bind Json.asNum
  pure (lat, lng)

def cellJson (cell : CellState) : Json :=
  .obj [("i", .num (cell.i : ℚ)), ("j", .num (cell.j : ℚ)),
        ("coins", .arr (cell.coins.map coinJson))]

def decodeCell (v : Json) : Option CellState := do
  let i ← (v.getField "i").bind Json.asInt
  let j ← (v.getField "j").bind Json.asInt
  let coinsJ ← (v.getField "coins").bind Json.asArr
  let coins ← coinsJ.mapM decodeCoin
  pure ⟨i, j, coins⟩

def keyJson (k : Key) : Json := .arr [.num (k.1 : ℚ), .num (k.2 : ℚ)]

def decodeKey (v : Json) : Option Key :=
  match v with
  | .arr [a, b] => do
      let i ← a.asInt
      let j ← b.asInt
      pure (i, j)
  | _ => none

def entryJson (e : Key × CellState) : Json := .arr [keyJson e.1, cellJson e.2]

def decodeEntry (v : Json) : Option (Key × CellState) :=
  match v with
  | .arr [kj, vj] => do
      let k ← decodeKey kj
      let cell ← decodeCell vj
      pure (k, cell)
  | _ => none

/-- `saveGameState()`: the `gameState` object — `playerLocation`,
`movementHistory` (each latlng projected to `{lat, lng}`), `playerCoins`
(each coin spread-copied) and `cellStates`
(`Array.from(entries)` with spread-copied cell and coin list). -/
def saveGameState (st : GameState) : Json :=
  .obj [
    ("playerLocation", .obj [("lat", .num st.currentLat), ("lng", .num st.currentLng)]),
    ("movementHistory", .arr (st.movementHistory.map latLngJson)),
    ("playerCoins", .arr (st.playerCoins.map coinJson)),
    ("cellStates", .arr (st.cellStates.map entryJson))]

/-- The field-by-field restoration inside `loadGameState`'s `if (savedState)`
branch: read `playerLocation.lat/.lng`, rebuild `movementHistory`, refill
`playerCoins`, and `clear()` then re-`set` every `cellStates` entry (coins
spread-copied).  `none` marks the access chains on which the JS code throws
or feeds `undefined` into a required position. -/
def decodeState (g : Json) : Option GameState := do
  let lat ← ((g.getField "playerLocation").bind (fun p => p.getField "lat")).bind Json.asNum
  let lng ← ((g.getField "playerLocation").bind (fun p => p.getField "lng")).bind Json.asNum
  let mhJ ← (g.getField "movementHistory").bind Json.asArr
  let mh ← mhJ.mapM decodeLatLng
  let pcJ ← (g.getField "playerCoins").bind Json.asArr
  let pc ← pcJ.mapM decodeCoin
  let csJ ← (g.getField "cellStates").bind Json.asArr
  let entries ← csJ.mapM decodeEntry
  pure { currentLat := lat, currentLng := lng, movementHistory := mh,
         playerCoins := pc,
         cellStates := entries.foldl (fun m e => mapSet m e.1 e.2) [] }

/-- `loadGameState()`: with no stored payload, only `updateVisibleCaches()`
runs; with a stored payload the fields are restored and then
`updateVisibleCaches()` runs.  There is no try/catch: `Except.error` marks
the uncaught JS exception on a payload of unexpected shape. -/
def loadGameState (luckSpawn : Int → Int → Bool) (luckCoins : Int → Int → Nat)
    (saved : Option Json) (st : GameState) : Except String GameState :=
  match saved with
  | none => .ok (updateVisibleCaches luckSpawn luckCoins st)
  | some gameState =>
      match decodeState gameState with
      | none => .error "TypeError"
      | some st' => .ok (updateVisibleCaches luckSpawn luckCoins st')

end Geocoin

namespace Geocoin

/-! ## Round-trip lemmas for the codec -/

theorem getField_cons_self (name : String) (x : Json) (fields : List (String × Json)) :
    Json.getField (.obj ((name, x) :: fields)) name = some x := by
  simp only [Json.getField]
  rw [List.find?_cons_of_pos _ (by simp)]
  rfl

theorem getField_cons_ne (name nm : String) (x : Json) (fields : List (String × Json))
    (h : nm ≠ name) :
    Json.getField (.obj ((nm, x) :: fields)) name = Json.getField (.obj fields) name := by
  simp only [Json.getField]
  rw [List.find?_cons_of_neg _ (by simpa using h)]

theorem asInt_intCast (n : Int) : Json.asInt (.num (n : ℚ)) = some n := by
  simp only [Json.asInt]
  rw [if_pos (Rat.den_intCast n)]
  rw [Rat.num_intCast]

theorem mapM_map_some {α β : Type} (f : β → Option α) (g : α → β)
    (h : ∀ a, f (g a) = some a) (l : List α) : (l.map g).mapM f = some l := by
  induction l with
  | nil => rfl
  | cons a l ih =>
      simp only [List.map_cons, List.mapM_cons, h a, ih]
      rfl

theorem decodeCoin_coinJson (c : Coin) : decodeCoin (coinJson c) = some c := by
  unfold decodeCoin coinJson
  rw [getField_cons_self]
  rw [getField_cons_ne _ _ _ _ (by decide), getField_cons_self]
  rw [getField_cons_ne _ _ _ _ (by decide), getField_cons_ne _ _ _ _ (by decide),
    getField_cons_self]
  simp [asInt_intCast]

theorem decodeLatLng_latLngJson (p : ℚ × ℚ) : decodeLatLng (latLngJson p) = some p := by
  unfold decodeLatLng latLngJson
  rw [getField_cons_self]
  rw [getField_cons_ne _ _ _ _ (by decide), getField_cons_self]
  simp [Json.asNum]

theorem decodeCell_cellJson (cell : CellState) : decodeCell (cellJson cell) = some cell := by
  unfold decodeCell cellJson
  rw [getField_cons_self]
  rw [getField_cons_ne _ _ _ _ (by decide), getField_cons_self]
  rw [getField_cons_ne _ _ _ _ (by decide), getField_cons_ne _ _ _ _ (by decide),
    getField_cons_self]
  simp only [asInt_intCast, Json.asArr, Option.bind_eq_bind, Option.some_bind]
  rw [mapM_map_some decodeCoin coinJson decodeCoin_coinJson]
  rfl

theorem decodeKey_keyJson (k : Key) : decodeKey (keyJson k) = some k := by
  unfold decodeKey keyJson
  simp [asInt_intCast]

theorem decodeEntry_entryJson (e : Key × CellState) : decodeEntry (entryJson e) = some e := by
  unfold decodeEntry entryJson
  simp [decodeKey_keyJson, decodeCell_cellJson]

theorem mapSet_of_not_mem (m : CellMap) (k : Key) (v : CellState)
    (h : ∀ x ∈ m, x.1 ≠ k) : mapSet m k v = m ++ [(k, v)] := by
  unfold mapSet
  rw [if_neg]
  simp only [List.any_eq_true, not_exists]
  intro x
  rintro ⟨hx, hk⟩
  exact absurd (of_decide_eq_true hk) (h x hx)

theorem foldl_mapSet_append (entries acc : CellMap)
    (hnd : (entries.map Prod.fst).Nodup)
    (hdisj : ∀ a ∈ acc, ∀ e ∈ entries, a.1 ≠ e.1) :
    entries.foldl (fun m e => mapSet m e.1 e.2) acc = acc ++ entries := by
  induction entries generalizing acc with
  | nil => simp
  | cons e rest ih =>
      simp only [List.map_cons, List.nodup_cons] at hnd
      simp only [List.foldl_cons]
      have hset : mapSet acc e.1 e.2 = acc ++ [e] := by
        rw [mapSet_of_not_mem acc e.1 e.2
          (fun a ha => hdisj a ha e (List.mem_cons_self e rest))]
      rw [hset]
      have hdisj' : ∀ a ∈ acc ++ [e], ∀ x ∈ rest, a.1 ≠ x.1 := by
        intro a ha x hx
        rcases List.mem_append.mp ha with ha | ha
        · exact hdisj a ha x (List.mem_cons_of_mem e hx)
        · have hae : a = e := by simpa using ha
          rw [hae]
          intro hax
          exact hnd.1 (by rw [hax]; exact List.mem_map_of_mem Prod.fst hx)
      rw [ih (acc ++ [e]) hnd.2 hdisj']
      simp

/-- Decoding what `saveGameState` wrote restores every field exactly (the
cell map is rebuilt by `clear()` + `set` in saved order, which reproduces the
original association list because a JS `Map` never stores a key twice). -/
theorem decodeState_saveGameState (S : GameState)
    (hnd : (S.cellStates.map Prod.fst).Nodup) :
    decodeState (saveGameState S) = some S := by
  unfold decodeState saveGameState
  rw [getField_cons_self]
  rw [getField_cons_ne _ _ _ _ (by decide), getField_cons_self]
  rw [getField_cons_ne _ _ _ _ (by decide), getField_cons_ne _ _ _ _ (by decide),
    getField_cons_self]
  rw [getField_cons_ne _ _ _ _ (by decide), getField_cons_ne _ _ _ _ (by decide),
    getField_cons_ne _ _ _ _ (by decide), getField_cons_self]
  simp only [Option.some_bind]
  rw [getField_cons_self]
  rw [getField_cons_ne _ _ _ _ (by decide), getField_cons_self]
  simp only [Json.asNum, Json.asArr, Option.bind_eq_bind, Option.some_bind]
  rw [mapM_map_some decodeLatLng latLngJson decodeLatLng_latLngJson,
    mapM_map_some decodeCoin coinJson decodeCoin_coinJson,
    mapM_map_some decodeEntry entryJson decodeEntry_entryJson]
  simp only [Option.some_bind, Option.pure_def, Option.some.injEq]
  rw [foldl_mapSet_append S.cellStates [] hnd (by intro a ha; simp at ha)]
  simp

/-- C4: for every state `S` with a non-empty trail, non-empty inventory and at
least one generated cell with coins (and the two facts true of every state the
running program reaches: the cell map never stores a key twice, and every
spawnable cell in the neighborhood of the player's position has already been
generated), `loadGameState` applied to what `saveGameState` produced restores
`S` exactly — position, trail, inventory and all cell states with their full
coin lists — no matter what the live state was before the load. -/
theorem save_load_roundtrip (luckSpawn : Int → Int → Bool) (luckCoins : Int → Int → Nat)
    (S st : GameState)
    (_htrail : S.movementHistory ≠ [])
    (_hinv : S.playerCoins ≠ [])
    (_hgen : ∃ e ∈ S.cellStates, e.2.coins ≠ [])
    (hnd : (S.cellStates.map Prod.fst).Nodup)
    (hcov : ∀ di ∈ neighborhoodOffsets, ∀ dj ∈ neighborhoodOffsets,
        luckSpawn (latToI S.currentLat + di) (lngToJ S.currentLng + dj) = true →
        (mapGet S.cellStates
          (latToI S.currentLat + di, lngToJ S.currentLng + dj)).isSome) :
    loadGameState luckSpawn luckCoins (some (saveGameState S)) st = .ok S := by
  simp only [loadGameState]
  rw [decodeState_saveGameState S hnd]
  show Except.ok (updateVisibleCaches luckSpawn luckCoins S) = Except.ok S
  rw [updateVisibleCaches_id luckSpawn luckCoins S hcov]

set_option maxRecDepth 4000 in
/-- Witness for C4: a one-cache state with one coin in the cache, one coin in
the inventory and a one-point trail survives the save/load round trip. -/
theorem save_load_roundtrip_witness :
    loadGameState (fun _ _ => false) (fun _ _ => 0)
      (some (saveGameState ⟨0, 0, [(0, 0)], [⟨9, 9, 0⟩], [((0, 0), ⟨0, 0, [⟨0, 0, 0⟩]⟩)]⟩))
      ⟨0, 0, [(0, 0)], [], []⟩
      = .ok ⟨0, 0, [(0, 0)], [⟨9, 9, 0⟩], [((0, 0), ⟨0, 0, [⟨0, 0, 0⟩]⟩)]⟩ :=
  save_load_roundtrip (fun _ _ => false) (fun _ _ => 0)
    ⟨0, 0, [(0, 0)], [⟨9, 9, 0⟩], [((0, 0), ⟨0, 0, [⟨0, 0, 0⟩]⟩)]⟩
    ⟨0, 0, [(0, 0)], [], []⟩
    (by decide) (by decide) (by decide) (by decide) (by decide)

set_option maxRecDepth 100000 in
/-- C5: the claim's recovery half fails on the code.  With no stored payload
`loadGameState` indeed does not fail (it only re-runs the visible-cache scan
over the fresh initial state), but when the stored payload parses to a JSON
value of the wrong shape — here the empty object `{}` — the restore chain
throws (`TypeError` reading `gameState.playerLocation.lat`; there is no
try/catch), instead of falling back to a fresh default state. -/
theorem loadGameState_no_recovery :
    loadGameState (fun _ _ => false) (fun _ _ => 0) (some (Json.obj []))
        ⟨oakesLat, oakesLng, [(oakesLat, oakesLng)], [], []⟩
      = .error "TypeError"
    ∧ loadGameState (fun _ _ => false) (fun _ _ => 0) none
        ⟨oakesLat, oakesLng, [(oakesLat, oakesLng)], [], []⟩
      = .ok ⟨oakesLat, oakesLng, [(oakesLat, oakesLng)], [], []⟩ :=
  ⟨rfl, rfl⟩

end Geocoin

namespace Geocoin

/-! ## Memento pattern with explicit references

`ConcreteMemento`'s constructor runs `new Map(state)` — a copy of the map's
key → object-reference pairs only, so the referenced `CellExtrinsicState`
objects (and their coin arrays) stay shared with the live map, despite the
source comment "Deep copy the state to ensure immutability".
`Originator.restore(memento)` executes `this.state = memento.getState()`:
it repoints only the originator's private field; the global `cellStates`
binding that `collect`/`deposit`/`spawnCache` read is never reassigned.
To express this the embedding makes both levels of reference explicit:
cell objects live in a heap addressed by `Addr`, `Map` objects live in a
second heap addressed by `MAddr`, and each `Map` object is an association
list from keys to cell addresses. -/

/-- Address of a `CellExtrinsicState` object. -/
abbrev Addr := Nat

/-- Address of a `Map<string, CellExtrinsicState>` object. -/
abbrev MAddr := Nat

/-- Generic heap / association-list lookup. -/
def assocGet {α β : Type} [DecidableEq α] (l : List (α × β)) (k : α) : Option β :=
  (l.find? (fun e => decide (e.1 = k))).map (·.2)

/-- Overwrite the object stored at an address (no-op if unallocated). -/
def heapSet {α : Type} (h : List (Nat × α)) (a : Nat) (v : α) : List (Nat × α) :=
  h.map (fun e => if e.1 = a then (a, v) else e)

/-- The whole reference graph the memento machinery lives in. -/
structure Session where
  currentLat : ℚ
  currentLng : ℚ
  cellHeap : List (Addr × CellState)
  mapHeap : List (MAddr × List (Key × Addr))
  globalMap : MAddr
  originatorState : MAddr
  mementos : List MAddr
  playerCoins : List Coin
  nextCellAddr : Addr
  nextMapAddr : MAddr
deriving DecidableEq, Repr

/-- The coin list of the cache at `k`, read the way the game reads it:
through the global `cellStates` map object. -/
def cellCoinsAt (s : Session) (k : Key) : Option (List Coin) := do
  let m ← assocGet s.mapHeap s.globalMap
  let a ← assocGet m k
  let cell ← assocGet s.cellHeap a
  pure cell.coins

/-- The coin list the snapshot at map-object `ma` has "captured" for `k`,
read through the memento's own `Map` object. -/
def mementoCoinsAt (s : Session) (ma : MAddr) (k : Key) : Option (List Coin) := do
  let m ← assocGet s.mapHeap ma
  let a ← assocGet m k
  let cell ← assocGet s.cellHeap a
  pure cell.coins

/-- `spawnCache` in reference terms: consult the global map object; when the
key is absent, allocate a fresh cell object and bind the key to its address. -/
def spawnCacheH (luckCoins : Int → Int → Nat) (s : Session) (i j : Int) : Session :=
  match assocGet s.mapHeap s.globalMap with
  | none => s
  | some m =>
      match assocGet m (i, j) with
      | some _ => s
      | none =>
          { s with
            cellHeap := s.cellHeap
              ++ [(s.nextCellAddr, ⟨i, j, initialCoins i j (luckCoins i j)⟩)],
            mapHeap := heapSet s.mapHeap s.globalMap (m ++ [((i, j), s.nextCellAddr)]),
            nextCellAddr := s.nextCellAddr + 1 }

/-- `updateVisibleCaches()` in reference terms. -/
def updateVisibleCachesH (luckSpawn : Int → Int → Bool) (luckCoins : Int → Int → Nat)
    (s : Session) : Session :=
  let pI := latToI s.currentLat
  let pJ := lngToJ s.currentLng
  neighborhoodOffsets.foldl (fun s1 di =>
    neighborhoodOffsets.foldl (fun s2 dj =>
      if luckSpawn (pI + di) (pJ + dj) then spawnCacheH luckCoins s2 (pI + di) (pJ + dj)
      else s2) s1) s

/-- The `#collect` handler acting through the shared references: fetch the
cell object via the global map, pop its last coin, push it onto
`playerCoins` (no-op when the cache is empty). -/
def collectH (s : Session) (k : Key) : Session :=
  match assocGet s.mapHeap s.globalMap with
  | none => s
  | some m =>
      match assocGet m k with
      | none => s
      | some a =>
          match assocGet s.cellHeap a with
          | none => s
          | some cell =>
              match cell.coins.getLast? with
              | none => s
              | some c =>
                  { s with
                    cellHeap := heapSet s.cellHeap a
                      { cell with coins := cell.coins.dropLast },
                    playerCoins := s.playerCoins ++ [c] }

/-- The `#deposit` handler (keep-provenance form) through the references. -/
def depositH (s : Session) (k : Key) : Session :=
  match assocGet s.mapHeap s.globalMap with
  | none => s
  | some m =>
      match assocGet m k with
      | none => s
      | some a =>
          match assocGet s.cellHeap a with
          | none => s
          | some cell =>
              match s.playerCoins.getLast? with
              | none => s
              | some c =>
                  { s with
                    cellHeap := heapSet s.cellHeap a
                      { cell with coins := cell.coins ++ [c] },
                    playerCoins := s.playerCoins.dropLast }

/-- `Caretaker.backup()`: `originator.save()` builds
`new ConcreteMemento(this.state)`, whose constructor copies the key→reference
pairs into a fresh `Map` object (`new Map(state)`), and the caretaker pushes
the memento. -/
def backup (s : Session) : Session :=
  match assocGet s.mapHeap s.originatorState with
  | none => s
  | some m =>
      { s with
        mapHeap := s.mapHeap ++ [(s.nextMapAddr, m)],
        mementos := s.mementos ++ [s.nextMapAddr],
        nextMapAddr := s.nextMapAddr + 1 }

/-- `Caretaker.undo()`: return on an empty stack; otherwise pop the newest
memento and run `originator.restore(memento)` — `this.state =
memento.getState()` (repointing only the originator's field) followed by
`updateVisibleCaches()`. -/
def undoH (luckSpawn : Int → Int → Bool) (luckCoins : Int → Int → Nat)
    (s : Session) : Session :=
  match s.mementos.getLast? with
  | none => s
  | some ma =>
      updateVisibleCachesH luckSpawn luckCoins
        { s with mementos := s.mementos.dropLast, originatorState := ma }

end Geocoin

namespace Geocoin

/-- A minimal live session: one cache at `(0,0)` holding the single coin
`(0,0)#0`; the global `cellStates` binding and the originator both point at
map object `0`, the snapshot stack is empty. -/
def mementoDemo : Session :=
  { currentLat := 0, currentLng := 0,
    cellHeap := [(0, ⟨0, 0, [⟨0, 0, 0⟩]⟩)],
    mapHeap := [(0, [((0, 0), 0)])],
    globalMap := 0, originatorState := 0,
    mementos := [], playerCoins := [],
    nextCellAddr := 1, nextMapAddr := 1 }

set_option maxRecDepth 100000 in
/-- C1: the claimed undo law fails on the code.  From `mementoDemo`, run
`save()` (`Caretaker.backup`), then collect the one coin of cache `(0,0)`,
then `undo()`.  Before the save the cache held `[(0,0)#0]`; after the undo it
still holds `[]` — the snapshot shared the live cell object (`new Map(state)`
copies only the key→reference pairs) and `Originator.restore` repoints only
the originator's private field, so nothing is restored.  The inventory is
indeed left unchanged by the undo itself (the one half of the claim the code
does satisfy): the collected coin is still there. -/
theorem undo_fails_to_restore :
    cellCoinsAt mementoDemo (0, 0) = some [⟨0, 0, 0⟩]
    ∧ cellCoinsAt (undoH (fun _ _ => false) (fun _ _ => 0)
        (collectH (backup mementoDemo) (0, 0))) (0, 0) = some []
    ∧ (undoH (fun _ _ => false) (fun _ _ => 0)
        (collectH (backup mementoDemo) (0, 0))).playerCoins
      = (collectH (backup mementoDemo) (0, 0)).playerCoins
    ∧ (collectH (backup mementoDemo) (0, 0)).playerCoins = [⟨0, 0, 0⟩] :=
  ⟨rfl, rfl, rfl, rfl⟩

/-- C2: the snapshot taken by `save()` does not hold independent copies of
the coin lists.  After `backup`, the memento is map object `1`; reading cache
`(0,0)` through the memento gives `[(0,0)#0]` at capture time, but after one
`collect` on the live cell the very same read through the memento gives
`[]` — the captured mapping aliases the live `CellExtrinsicState` objects,
so mutating a live cell's coin list corrupts the snapshot. -/
theorem snapshot_aliases_live_state :
    (backup mementoDemo).mementos = [1]
    ∧ mementoCoinsAt (backup mementoDemo) 1 (0, 0) = some [⟨0, 0, 0⟩]
    ∧ mementoCoinsAt (collectH (backup mementoDemo) (0, 0)) 1 (0, 0) = some [] :=
  ⟨rfl, rfl, rfl⟩

end Geocoin

namespace Geocoin

/-! ## `resetGame` -/

/-- `cellStates.get(originKey)` followed by
`originalExtrinsicState.coins.push(coin)` when the origin cache exists — the
shared body of both coin-returning loops of `resetGame`. -/
def returnCoinStep (acc : CellMap) (coin : Coin) : CellMap :=
  match mapGet acc (coin.i, coin.j) with
  | some _ => mapModify acc (coin.i, coin.j)
      (fun oc => { oc with coins := oc.coins ++ [coin] })
  | none => acc

/-- One iteration of `resetGame`'s `cellStates.forEach` body, for the cell at
key `k`: every coin of that cell whose origin key maps to an existing,
different cell object is pushed onto that origin cell's list
(`originalExtrinsicState && originalExtrinsicState !== extrinsicState` — with
one object per key, "same object" is "same key"); then the cell's list is
replaced by its coins whose stringified origin equals the cell's own stored
indices. -/
def resetCellStep (m : CellMap) (k : Key) : CellMap :=
  match mapGet m k with
  | none => m
  | some cell =>
      let m1 := cell.coins.foldl (fun acc coin =>
        if (coin.i, coin.j) ≠ k then returnCoinStep acc coin else acc) m
      mapModify m1 k (fun c =>
        { c with coins := c.coins.filter (fun coin => decide ((coin.i, coin.j) = (c.i, c.j))) })

/-- `resetGame()` (`main.ts` 293–329, part_000 313–349): reset position and
trail to `OAKES`; push every inventory coin onto its origin cache when that
cache exists in `cellStates` (a coin with no generated origin cell is simply
dropped) and clear the inventory; run the per-cell return-and-filter pass over
the cells in insertion order; finally `updateVisibleCaches()`. -/
def resetGame (luckSpawn : Int → Int → Bool) (luckCoins : Int → Int → Nat)
    (st : GameState) : GameState :=
  let m1 := st.playerCoins.foldl returnCoinStep st.cellStates
  let m2 := (m1.map Prod.fst).foldl resetCellStep m1
  updateVisibleCaches luckSpawn luckCoins
    { currentLat := oakesLat, currentLng := oakesLng,
      movementHistory := [(oakesLat, oakesLng)],
      playerCoins := [],
      cellStates := m2 }

/-- Total coin count of a full game state. -/
def totalCoinsG (st : GameState) : Nat :=
  (st.cellStates.map (fun e => e.2.coins.length)).sum + st.playerCoins.length

/-- Key faithfulness: each entry is stored under the key built from its own
indices — true of every map the program ever builds. -/
def keyFaithful (m : CellMap) : Prop :=
  ∀ e ∈ m, e.1 = (e.2.i, e.2.j)

/-- All coins of the entry sit in their origin cell (origin = the map key). -/
def entryMatched (e : Key × CellState) : Prop :=
  ∀ coin ∈ e.2.coins, (coin.i, coin.j) = e.1

end Geocoin

namespace Geocoin

theorem foldl_invariant {α β : Type} (Q : β → Prop) (f : β → α → β)
    (l : List α) (b : β) (h : Q b) (hf : ∀ b a, Q b → Q (f b a)) : Q (l.foldl f b) := by
  induction l generalizing b with
  | nil => exact h
  | cons a l ih => exact ih (f b a) (hf b a h)

theorem mem_mapModify (m : CellMap) (k : Key) (f : CellState → CellState)
    (e : Key × CellState) (he : e ∈ mapModify m k f) :
    ∃ x ∈ m, e = if x.1 = k then (x.1, f x.2) else x := by
  unfold mapModify at he
  rcases List.mem_map.mp he with ⟨x, hx, hxe⟩
  by_cases hk : x.1 = k
  · exact ⟨x, hx, by rw [← hxe, if_pos hk]⟩
  · exact ⟨x, hx, by rw [← hxe, if_neg hk]⟩

theorem keyFaithful_mapModify (m : CellMap) (k : Key) (f : CellState → CellState)
    (hf : ∀ c, (f c).i = c.i ∧ (f c).j = c.j)
    (h : keyFaithful m) : keyFaithful (mapModify m k f) := by
  intro e he
  rcases mem_mapModify m k f e he with ⟨x, hx, hxe⟩
  by_cases hk : x.1 = k
  · rw [hxe, if_pos hk]
    have := h x hx
    simp only
    rw [(hf x.2).1, (hf x.2).2]
    exact this
  · rw [hxe, if_neg hk]
    exact h x hx

theorem matched_mapModify_push (m : CellMap) (coin : Coin) (ok : Key)
    (hok : (coin.i, coin.j) = ok) (P : Key → Prop)
    (h : ∀ e ∈ m, P e.1 → entryMatched e) :
    ∀ e ∈ mapModify m ok (fun oc => { oc with coins := oc.coins ++ [coin] }),
      P e.1 → entryMatched e := by
  intro e he hP
  rcases mem_mapModify m ok _ e he with ⟨x, hx, hxe⟩
  by_cases hk : x.1 = ok
  · rw [hxe, if_pos hk] at hP ⊢
    intro c hc
    simp only at hc
    rcases List.mem_append.mp hc with hc | hc
    · exact h x hx hP c hc
    · have : c = coin := by simpa using hc
      rw [this, hok, ← hk]
  · rw [hxe, if_neg hk] at hP ⊢
    exact h x hx hP

theorem mapGet_none_no_key (m : CellMap) (k : Key)
    (h : mapGet m k = none) : ∀ x ∈ m, x.1 ≠ k := by
  unfold mapGet at h
  cases hfind : m.find? (fun e => decide (e.1 = k)) with
  | some a => rw [hfind] at h; simp at h
  | none =>
      intro x hx hk
      have := List.find?_eq_none.mp hfind x hx
      simp [hk] at this

/-- One `returnCoinStep` preserves key faithfulness and the matched set. -/
theorem returnCoinStep_preserve (acc : CellMap) (coin : Coin) (P : Key → Prop)
    (h : keyFaithful acc ∧ ∀ e ∈ acc, P e.1 → entryMatched e) :
    keyFaithful (returnCoinStep acc coin)
    ∧ ∀ e ∈ returnCoinStep acc coin, P e.1 → entryMatched e := by
  unfold returnCoinStep
  cases hg : mapGet acc (coin.i, coin.j) with
  | none => exact h
  | some _ =>
      refine ⟨keyFaithful_mapModify acc _ _ (fun c => ⟨rfl, rfl⟩) h.1, ?_⟩
      exact matched_mapModify_push acc coin (coin.i, coin.j) rfl P h.2

/-- The properties the per-cell pass of `resetGame` establishes: key
faithfulness persists, and every cell that was already fully returned (`P`)
or is the cell just processed ends up holding only its own coins. -/
theorem resetCellStep_spec (m : CellMap) (k : Key) (hkf : keyFaithful m)
    (P : Key → Prop)
    (hdone : ∀ e ∈ m, P e.1 → entryMatched e) :
    keyFaithful (resetCellStep m k)
    ∧ ∀ e ∈ resetCellStep m k, (P e.1 ∨ e.1 = k) → entryMatched e := by
  unfold resetCellStep
  cases hget : mapGet m k with
  | none =>
      refine ⟨hkf, fun e he hPe => ?_⟩
      rcases hPe with hPe | hPe
      · exact hdone e he hPe
      · exact absurd hPe (mapGet_none_no_key m k hget e he)
  | some cell =>
      simp only
      have hfold := foldl_invariant
        (fun acc => keyFaithful acc ∧ ∀ e ∈ acc, P e.1 → entryMatched e)
        (fun acc coin => if (coin.i, coin.j) ≠ k then returnCoinStep acc coin else acc)
        cell.coins m ⟨hkf, hdone⟩ (fun b a hb => by
          by_cases hne : (a.i, a.j) ≠ k
          · simp only [if_pos hne]
            exact returnCoinStep_preserve b a P hb
          · simp only [if_neg hne]
            exact hb)
      constructor
      · exact keyFaithful_mapModify _ k _ (fun c => ⟨rfl, rfl⟩) hfold.1
      · intro e he hPe
        rcases mem_mapModify _ k _ e he with ⟨x, hx, hxe⟩
        subst hxe
        by_cases hk : x.1 = k
        · simp only [if_pos hk] at hPe ⊢
          intro c hc
          have hmem : c ∈ x.2.coins.filter
              (fun coin => decide ((coin.i, coin.j) = (x.2.i, x.2.j))) := hc
          have hpred : ((c.i, c.j) = (x.2.i, x.2.j)) :=
            of_decide_eq_true (List.mem_filter.mp hmem).2
          have hx1 : x.1 = (x.2.i, x.2.j) := hfold.1 x hx
          show (c.i, c.j) = x.1
          rw [hx1]
          exact hpred
        · simp only [if_neg hk] at hPe ⊢
          rcases hPe with hPe | hPe
          · exact hfold.2 x hx hPe
          · exact absurd hPe hk

theorem resetFold_matched (ks : List Key) (m : CellMap) (hkf : keyFaithful m)
    (hdone : ∀ e ∈ m, e.1 ∉ ks → entryMatched e) :
    keyFaithful (ks.foldl resetCellStep m)
    ∧ ∀ e ∈ ks.foldl resetCellStep m, entryMatched e := by
  induction ks generalizing m with
  | nil => exact ⟨hkf, fun e he => hdone e he (by simp)⟩
  | cons k ks ih =>
      simp only [List.foldl_cons]
      have hstep := resetCellStep_spec m k hkf (fun key => key ∉ (k :: ks))
        (fun e he hP => hdone e he hP)
      refine ih (resetCellStep m k) hstep.1 ?_
      intro e he hnot
      refine hstep.2 e he ?_
      by_cases hek : e.1 = k
      · exact Or.inr hek
      · refine Or.inl ?_
        simp only [List.mem_cons, not_or]
        exact ⟨hek, hnot⟩

theorem mem_initialCoins (i j : Int) (n : Nat) (c : Coin)
    (hc : c ∈ initialCoins i j n) : c.i = i ∧ c.j = j := by
  unfold initialCoins at hc
  rcases List.mem_map.mp hc with ⟨s, _, rfl⟩
  exact ⟨rfl, rfl⟩

theorem spawnCache_preserve (luckCoins : Int → Int → Nat) (m : CellMap) (i j : Int)
    (h : keyFaithful m ∧ ∀ e ∈ m, entryMatched e) :
    keyFaithful (spawnCache luckCoins m i j)
    ∧ ∀ e ∈ spawnCache luckCoins m i j, entryMatched e := by
  unfold spawnCache
  by_cases hs : (mapGet m (i, j)).isSome
  · rw [if_pos hs]; exact h
  · rw [if_neg hs]
    constructor
    · intro e he
      rcases mem_mapSet _ _ _ e he with he | he
      · exact h.1 e he
      · rw [he]
    · intro e he
      rcases mem_mapSet _ _ _ e he with he | he
      · exact h.2 e he
      · rw [he]
        intro c hc
        have hcij := mem_initialCoins i j _ c hc
        show (c.i, c.j) = (i, j)
        rw [hcij.1, hcij.2]

theorem updateVisibleCaches_preserve (luckSpawn : Int → Int → Bool)
    (luckCoins : Int → Int → Nat) (st : GameState)
    (h : keyFaithful st.cellStates ∧ ∀ e ∈ st.cellStates, entryMatched e) :
    keyFaithful (updateVisibleCaches luckSpawn luckCoins st).cellStates
    ∧ ∀ e ∈ (updateVisibleCaches luckSpawn luckCoins st).cellStates, entryMatched e := by
  simp only [updateVisibleCaches]
  refine foldl_invariant
    (fun m => keyFaithful m ∧ ∀ e ∈ m, entryMatched e)
    _ neighborhoodOffsets st.cellStates h ?_
  intro m di hm
  refine foldl_invariant
    (fun m => keyFaithful m ∧ ∀ e ∈ m, entryMatched e)
    _ neighborhoodOffsets m hm ?_
  intro m2 dj hm2
  by_cases hs : luckSpawn (latToI st.currentLat + di) (lngToJ st.currentLng + dj) = true
  · simp only [if_pos hs]
    exact spawnCache_preserve luckCoins m2 _ _ hm2
  · simp only [if_neg hs]
    exact hm2

end Geocoin

namespace Geocoin

set_option maxRecDepth 100000 in
/-- C10: after `resetGame` (run on any state whose map is key-faithful, as
every map the program builds is), the player inventory is empty and every
cell's coin list holds exactly coins whose origin indices `(coin.i, coin.j)`
equal that cell's own indices; and — shown at a concrete input — a coin whose
origin cell has no generated extrinsic state is removed from play entirely
(the inventory coin `(7,7)#0` is dropped because cell `(7,7)` was never
generated), so `resetGame` does not conserve the total coin count there. -/
theorem resetGame_spec (luckSpawn : Int → Int → Bool) (luckCoins : Int → Int → Nat)
    (st : GameState) (hkf : keyFaithful st.cellStates) :
    ((resetGame luckSpawn luckCoins st).playerCoins = []
      ∧ ∀ e ∈ (resetGame luckSpawn luckCoins st).cellStates,
          ∀ coin ∈ e.2.coins, (coin.i, coin.j) = (e.2.i, e.2.j))
    ∧ (totalCoinsG (resetGame (fun _ _ => false) (fun _ _ => 0)
          ⟨5, 5, [(1, 1)], [⟨7, 7, 0⟩], [((0, 0), ⟨0, 0, []⟩)]⟩) = 0
      ∧ totalCoinsG ⟨5, 5, [(1, 1)], [⟨7, 7, 0⟩], [((0, 0), ⟨0, 0, []⟩)]⟩ = 1) := by
  refine ⟨⟨rfl, ?_⟩, rfl, rfl⟩
  have hm1 := foldl_invariant
    (fun m => keyFaithful m ∧ ∀ e ∈ m, False → entryMatched e)
    returnCoinStep st.playerCoins st.cellStates
    ⟨hkf, fun e _ hF => hF.elim⟩
    (fun b a hb => returnCoinStep_preserve b a (fun _ => False) hb)
  have hm2 := resetFold_matched
    ((st.playerCoins.foldl returnCoinStep st.cellStates).map Prod.fst)
    (st.playerCoins.foldl returnCoinStep st.cellStates) hm1.1
    (fun e he hnot => absurd (List.mem_map_of_mem Prod.fst he) hnot)
  have hfin := updateVisibleCaches_preserve luckSpawn luckCoins
    { currentLat := oakesLat, currentLng := oakesLng,
      movementHistory := [(oakesLat, oakesLng)], playerCoins := [],
      cellStates :=
        ((st.playerCoins.foldl returnCoinStep st.cellStates).map Prod.fst).foldl
          resetCellStep (st.playerCoins.foldl returnCoinStep st.cellStates) }
    ⟨hm2.1, hm2.2⟩
  intro e he c hc
  have h1 : (c.i, c.j) = e.1 := hfin.2 e he c hc
  have h2 : e.1 = (e.2.i, e.2.j) := hfin.1 e he
  rw [h1, h2]

set_option maxRecDepth 100000 in
/-- Witness for C10: resetting a state whose inventory holds the coin
`(2,3)#0` collected from the generated cache `(2,3)` empties the inventory. -/
theorem resetGame_spec_witness :
    keyFaithful ([((2, 3), ⟨2, 3, [⟨2, 3, 0⟩]⟩)] : CellMap)
    ∧ (resetGame (fun _ _ => false) (fun _ _ => 0)
        ⟨0, 0, [(0, 0)], [⟨2, 3, 0⟩], [((2, 3), ⟨2, 3, [⟨2, 3, 0⟩]⟩)]⟩).playerCoins = [] :=
  ⟨by unfold keyFaithful; decide,
   (resetGame_spec (fun _ _ => false) (fun _ _ => 0)
      ⟨0, 0, [(0, 0)], [⟨2, 3, 0⟩], [((2, 3), ⟨2, 3, [⟨2, 3, 0⟩]⟩)]⟩
      (by unfold keyFaithful; decide)).1.1⟩

end Geocoin
